import Mathlib

/-!
Shallow embedding of the TechStats cache-service core
(`cache-service/app/cache_manager.py`, `cache-service/app/cluster_manager.py`,
`cache-service/app/routers/cache.py`) and proofs about it.

Modelling conventions:
* Timestamps (`time.time()`) are modelled as integers (`ℤ`): every use the
  code makes of a timestamp is an order comparison or a subtraction, so
  integer instants instantiate the real-valued behaviour exactly, and the
  boundary cases of the claims happen at such instants.
* Cached payload values arrive through the HTTP routers as decoded JSON, so
  they are modelled by the inductive `PyVal` below (`PyVal.none` is Python's
  `None`).
* `len(pickle.dumps(value))` (the per-item size estimate) is kept abstract as
  a parameter `sizeOf : PyVal → ℤ` in the context `Ctx`.
* Fallible paths return explicit results; methods that mutate `self` are
  state-passing functions.
-/

namespace TechStats

/-- A decoded-JSON payload value, the domain of cached values as they arrive
through the service's HTTP routers.  `PyVal.none` is Python's `None`. -/
inductive PyVal where
  | none
  | bool (b : Bool)
  | int (n : ℤ)
  | str (s : String)
  | list (l : List PyVal)
  | obj (o : List (String × PyVal))

/-- The eviction strategies of `config.CacheStrategy`. -/
inductive Strategy where
  | lru
  | lfu
  | fifo
  | random
deriving DecidableEq

/-- The configuration and opaque helpers an operation reads:
`sizeOf` abstracts `len(pickle.dumps(value))` from
`MemoryBackend._get_item_size`; the rest are the `settings` fields used by
the modelled code. -/
structure Ctx where
  sizeOf : PyVal → ℤ
  defaultTtl : ℤ
  maxItemSizeKb : ℤ
  strategy : Strategy

abbrev Key := String

/-- `CacheItem` from `cache_manager.py`. -/
structure CacheItem where
  key : Key
  value : PyVal
  ttl : ℤ
  createdAt : ℤ
  accessedAt : ℤ
  accessCount : ℕ
  tags : List String
  metadata : List (String × PyVal)

/-- `ttl or settings.default_ttl_seconds` in `CacheItem.__init__`: Python's
`or` replaces a falsy `ttl` (`None` or `0`) by the default. -/
def ctorTtl (ttl : Option ℤ) (dflt : ℤ) : ℤ :=
  match ttl with
  | Option.none => dflt
  | some t => if t = 0 then dflt else t

/-- `CacheItem(key, value, ttl, tags=tags)` as constructed by
`MemoryBackend.set`: `created_at`/`accessed_at` default to the current time,
`access_count` to `0`, `tags or []` coalesces a missing tag list. -/
def mkCacheItem (ctx : Ctx) (now : ℤ) (key : Key) (value : PyVal)
    (ttl : Option ℤ) (tags : Option (List String)) : CacheItem :=
  { key := key, value := value, ttl := ctorTtl ttl ctx.defaultTtl,
    createdAt := now, accessedAt := now, accessCount := 0,
    tags := tags.getD [], metadata := [] }

/-- `CacheItem.is_expired`, evaluated at time `now`:
`time.time() - self.created_at > self.ttl` (the `ttl is None` branch is dead,
because the constructor always coalesces `ttl` to an integer). -/
def CacheItem.isExpiredAt (it : CacheItem) (now : ℤ) : Bool :=
  decide (now - it.createdAt > it.ttl)

/-! ### Python-dict association lists

Python dicts preserve insertion order; assignment to an existing key keeps its
position.  We model them as association lists with `Nodup` keys. -/

/-- `d[k] = v`: replace in place if the key exists, else append. -/
def dictSet {β : Type} (k : Key) (v : β) : List (Key × β) → List (Key × β)
  | [] => [(k, v)]
  | (k', v') :: rest => if k' = k then (k, v) :: rest else (k', v') :: dictSet k v rest

/-- `d.get(k)` / `d[k]` lookup. -/
def dictGet {β : Type} (k : Key) : List (Key × β) → Option β
  | [] => Option.none
  | (k', v') :: rest => if k' = k then some v' else dictGet k rest

/-- `del d[k]` (for `Nodup` keys, removes the unique entry with key `k`). -/
def removeKey {β : Type} (k : Key) (l : List (Key × β)) : List (Key × β) :=
  l.filter (fun p => p.1 ≠ k)

/-! ### MemoryBackend -/

/-- The mutable state of `MemoryBackend`. -/
structure MemState where
  cache : List (Key × CacheItem)
  maxSize : ℤ
  currentSize : ℤ
  initialized : Bool

/-- A freshly `initialize`d `MemoryBackend` with byte budget `m`
(`settings.max_cache_size_mb * 1024 * 1024` in the code). -/
def memInit (m : ℤ) : MemState :=
  { cache := [], maxSize := m, currentSize := 0, initialized := true }

/-- Candidate ordering of `MemoryBackend._evict_if_needed`: a stable sort by
the policy key (`sorted` in Python is stable; so is insertion sort).
`random.shuffle` produces an unspecified permutation; it is modelled as the
identity permutation, and every budget result below is proved for arbitrary
permutations of the cache. -/
def byAccessed : (Key × CacheItem) → (Key × CacheItem) → Prop :=
  fun a b => a.2.accessedAt ≤ b.2.accessedAt

def byCount : (Key × CacheItem) → (Key × CacheItem) → Prop :=
  fun a b => a.2.accessCount ≤ b.2.accessCount

def byCreated : (Key × CacheItem) → (Key × CacheItem) → Prop :=
  fun a b => a.2.createdAt ≤ b.2.createdAt

instance : DecidableRel byAccessed := fun a b => inferInstanceAs (Decidable (_ ≤ _))
instance : DecidableRel byCount := fun a b => inferInstanceAs (Decidable (_ ≤ _))
instance : DecidableRel byCreated := fun a b => inferInstanceAs (Decidable (_ ≤ _))

instance : IsTotal (Key × CacheItem) byAccessed := ⟨fun a b => le_total _ _⟩
instance : IsTrans (Key × CacheItem) byAccessed := ⟨fun _ _ _ => le_trans⟩
instance : IsTotal (Key × CacheItem) byCount := ⟨fun a b => le_total _ _⟩
instance : IsTrans (Key × CacheItem) byCount := ⟨fun _ _ _ => le_trans⟩
instance : IsTotal (Key × CacheItem) byCreated := ⟨fun a b => le_total _ _⟩
instance : IsTrans (Key × CacheItem) byCreated := ⟨fun _ _ _ => le_trans⟩

def sortByPolicy (strat : Strategy) (l : List (Key × CacheItem)) :
    List (Key × CacheItem) :=
  match strat with
  | Strategy.lru => List.insertionSort byAccessed l
  | Strategy.lfu => List.insertionSort byCount l
  | Strategy.fifo => List.insertionSort byCreated l
  | Strategy.random => l

/-- The eviction loop of `_evict_if_needed`:
`while self.current_size > target_size and items: ...` with
`target_size = self.max_size * 0.8`; the comparison
`current_size > max_size * 0.8` is written exactly over the rationals as
`5 * current_size > 4 * max_size`. -/
def evictLoop (ctx : Ctx) : List (Key × CacheItem) → MemState → MemState
  | [], st => st
  | (k, it) :: rest, st =>
    if 5 * st.currentSize > 4 * st.maxSize then
      evictLoop ctx rest
        { st with cache := removeKey k st.cache,
                  currentSize := st.currentSize - ctx.sizeOf it.value }
    else st

/-- `MemoryBackend._evict_if_needed`: returns unchanged when within budget,
otherwise evicts in policy order down to the 80% target.  Note: the policy
sort ignores expiry — expired items get no priority. -/
def evictIfNeeded (ctx : Ctx) (st : MemState) : MemState :=
  if st.currentSize ≤ st.maxSize then st
  else evictLoop ctx (sortByPolicy ctx.strategy st.cache) st

/-- The access-statistics update a live `get` performs on the stored item:
`item.accessed_at = time.time(); item.access_count += 1`. -/
def bumpItem (now : ℤ) (it : CacheItem) : CacheItem :=
  { it with accessedAt := now, accessCount := it.accessCount + 1 }

/-- `MemoryBackend.get` at time `now`.  Returns `PyVal.none` (Python `None`)
for a missing or expired key; on an expired hit the item is deleted and its
size subtracted; on a live hit `accessed_at`/`access_count` are updated. -/
def memGet (ctx : Ctx) (now : ℤ) (key : Key) (st : MemState) :
    PyVal × MemState :=
  if st.initialized then
    match dictGet key st.cache with
    | some item =>
      if item.isExpiredAt now then
        (PyVal.none,
          { st with cache := removeKey key st.cache,
                    currentSize := st.currentSize - ctx.sizeOf item.value })
      else
        (item.value, { st with cache := dictSet key (bumpItem now item) st.cache })
    | Option.none => (PyVal.none, st)
  else (PyVal.none, st)

/-- `MemoryBackend.set` at time `now`: rejects a single item larger than
`max_item_size_kb * 1024`; subtracts the replaced item's size; inserts, adds
the new size, then runs eviction; acknowledges success afterwards. -/
def memSet (ctx : Ctx) (now : ℤ) (key : Key) (value : PyVal)
    (ttl : Option ℤ) (tags : Option (List String)) (st : MemState) :
    Bool × MemState :=
  if st.initialized then
    let item := mkCacheItem ctx now key value ttl tags
    let itemSize := ctx.sizeOf value
    if itemSize > ctx.maxItemSizeKb * 1024 then (false, st)
    else
      let st1 :=
        match dictGet key st.cache with
        | some old => { st with currentSize := st.currentSize - ctx.sizeOf old.value }
        | Option.none => st
      let st2 := { st1 with cache := dictSet key item st1.cache,
                            currentSize := st1.currentSize + itemSize }
      (true, evictIfNeeded ctx st2)
  else (false, st)

/-- `MemoryBackend.delete`. -/
def memDelete (ctx : Ctx) (key : Key) (st : MemState) : Bool × MemState :=
  if st.initialized then
    match dictGet key st.cache with
    | some item =>
      (true, { st with cache := removeKey key st.cache,
                       currentSize := st.currentSize - ctx.sizeOf item.value })
    | Option.none => (false, st)
  else (false, st)

/-- `MemoryBackend.exists` at time `now`: a live hit answers `True`; an
expired hit is deleted (via `self.delete`) and answers `False`. -/
def memExists (ctx : Ctx) (now : ℤ) (key : Key) (st : MemState) :
    Bool × MemState :=
  if st.initialized then
    match dictGet key st.cache with
    | some item =>
      if item.isExpiredAt now then (false, (memDelete ctx key st).2)
      else (true, st)
    | Option.none => (false, st)
  else (false, st)

/-- `*` consumes zero or more characters: try the rest of the pattern at
every suffix of the string. -/
def globStar (matchRest : List Char → Bool) : List Char → Bool
  | [] => matchRest []
  | c :: s => matchRest (c :: s) || globStar matchRest s

/-- `fnmatch.fnmatch` for the glob patterns the service uses
(`*`, `?` and literal characters; POSIX case-sensitive matching;
character classes are never used by the callers). -/
def globChars : List Char → List Char → Bool
  | [], s => s.isEmpty
  | '*' :: ps, s => globStar (fun s' => globChars ps s') s
  | '?' :: _, [] => false
  | '?' :: ps, _ :: s => globChars ps s
  | _ :: _, [] => false
  | p :: ps, c :: s => p = c && globChars ps s

def globMatch (pattern s : String) : Bool :=
  globChars pattern.toList s.toList

/-- `MemoryBackend.keys(pattern)` at time `now`: snapshots the key list, then
for each key runs the (mutating) `exists` check and the glob filter. -/
def memKeys (ctx : Ctx) (now : ℤ) (pattern : String) (st : MemState) :
    List Key × MemState :=
  if st.initialized then
    (st.cache.map Prod.fst).foldl
      (fun acc k =>
        let r := memExists ctx now k acc.2
        if r.1 && globMatch pattern k then (acc.1 ++ [k], r.2) else (acc.1, r.2))
      ([], st)
  else ([], st)

/-! ### CacheManager (façade over the memory backend)

The façade counts operations and hits/misses; the per-operation latency
window (`metrics["timings"]`) records wall-clock samples and is not part of
any claim, so it is left out of the state.  The `except` handlers of the
façade never fire against the in-memory backend (its operations raise
nothing), so the error counters stay zero here. -/

structure Metrics where
  gets : ℕ
  sets : ℕ
  deletes : ℕ
  hits : ℕ
  misses : ℕ
  errGets : ℕ
  errSets : ℕ
  errDeletes : ℕ

/-- Fresh `CacheManager.metrics` counters. -/
def metricsInit : Metrics :=
  { gets := 0, sets := 0, deletes := 0, hits := 0, misses := 0,
    errGets := 0, errSets := 0, errDeletes := 0 }

structure CMState where
  metrics : Metrics
  mem : MemState

def cmInit (m : ℤ) : CMState :=
  { metrics := metricsInit, mem := memInit m }

/-- `CacheManager.get`: counts the operation, delegates, then counts a hit
iff the backend returned a non-`None` value (`if value is not None`). -/
def cmGet (ctx : Ctx) (now : ℤ) (key : Key) (st : CMState) : PyVal × CMState :=
  let m1 := { st.metrics with gets := st.metrics.gets + 1 }
  let r := memGet ctx now key st.mem
  match r.1 with
  | PyVal.none =>
    (r.1, { metrics := { m1 with misses := m1.misses + 1 }, mem := r.2 })
  | _ =>
    (r.1, { metrics := { m1 with hits := m1.hits + 1 }, mem := r.2 })

/-- `CacheManager.set`. -/
def cmSet (ctx : Ctx) (now : ℤ) (key : Key) (value : PyVal) (ttl : Option ℤ)
    (tags : Option (List String)) (st : CMState) : Bool × CMState :=
  let m1 := { st.metrics with sets := st.metrics.sets + 1 }
  let r := memSet ctx now key value ttl tags st.mem
  (r.1, { metrics := m1, mem := r.2 })

/-- `CacheManager.delete`. -/
def cmDelete (ctx : Ctx) (key : Key) (st : CMState) : Bool × CMState :=
  let m1 := { st.metrics with deletes := st.metrics.deletes + 1 }
  let r := memDelete ctx key st.mem
  (r.1, { metrics := m1, mem := r.2 })

/-- The outcome of a fallback compute (`await fallback_func()`): either a
value (possibly Python `None`) or a raised exception. -/
inductive FallbackErr where
  | exn (msg : String)

/-- `CacheManager.get_with_fallback`: serve a cached non-`None` value;
otherwise run the compute, store its result unless it is `None`, and return
it; a compute exception is logged and re-raised (`raise`), with the state
mutations made so far kept. -/
def getWithFallback (ctx : Ctx) (now : ℤ) (key : Key)
    (fallback : Except FallbackErr PyVal) (ttl : Option ℤ)
    (tags : Option (List String)) (st : CMState) :
    Except FallbackErr PyVal × CMState :=
  let r := cmGet ctx now key st
  match r.1 with
  | PyVal.none =>
    match fallback with
    | Except.error e => (Except.error e, r.2)
    | Except.ok v =>
      match v with
      | PyVal.none => (Except.ok v, r.2)
      | _ => (Except.ok v, (cmSet ctx now key v ttl tags r.2).2)
  | cached => (Except.ok cached, r.2)

/-- `hasattr(item, 'tags')` inside `CacheManager.invalidate_by_tags`, where
`item` is the result of `self.backend.get(key)` — i.e. the cached *payload
value* (or `None`), not the `CacheItem`.  No decoded-JSON payload
(`None`, `bool`, `int`, `str`, `list`, `dict`) carries a `tags` attribute,
so the attribute probe always fails. -/
def attrTags (_v : PyVal) : Option (List String) := Option.none

/-- `CacheManager.invalidate_by_tags(tags)` for the memory backend (the
`else` branch of the method): list all keys, fetch each *value* with
`backend.get`, and delete only when the value has a `tags` attribute that
intersects `tags`. -/
def invalidateByTags (ctx : Ctx) (now : ℤ) (tags : List String)
    (st : CMState) : ℤ × CMState :=
  let ks := memKeys ctx now "*" st.mem
  let r := ks.1.foldl
    (fun (acc : ℤ × MemState) k =>
      let g := memGet ctx now k acc.2
      match attrTags g.1 with
      | some itemTags =>
        if tags.any (fun t => itemTags.contains t) then
          (acc.1 + 1, (memDelete ctx k g.2).2)
        else (acc.1, g.2)
      | Option.none => (acc.1, g.2))
    ((0 : ℤ), ks.2)
  (r.1, { st with mem := r.2 })

/-! ### RedisBackend (key-value store), modelled at the wire interface

Only the state the code writes through the Redis client is modelled: the flat
key space (`SET`/`SETEX`) and the auxiliary `"<key>:tags"` sets
(`SADD`/`EXPIRE`).  Serialization (`msgpack`/`pickle`) is opaque: the stored
payload is kept as the `PyVal` itself. -/

structure RedisEntry where
  value : PyVal
  ttl : Option ℤ

structure RedisState where
  store : List (Key × RedisEntry)
  tagSets : List (Key × (List String × Option ℤ))
  initialized : Bool

def redisInit : RedisState := { store := [], tagSets := [], initialized := true }

/-- Python truthiness of the optional `ttl` argument (`if ttl:`):
`None` and `0` are falsy. -/
def ttlTruthy (ttl : Option ℤ) : Bool :=
  match ttl with
  | some t => decide (t ≠ 0)
  | Option.none => false

/-- `SADD key member ...`: add each member not already present, keeping set
insertion order for the model. -/
def saddAll (old : List String) (new : List String) : List String :=
  new.foldl (fun acc t => if acc.contains t then acc else acc ++ [t]) old

/-- `RedisBackend.set`: `SETEX`/`SET` the value, then — only when `tags` is
non-empty (`if tags:`) — `SADD` the tags into the existing `"<key>:tags"` set
and mirror the TTL with `EXPIRE` when `ttl` is truthy.  The old tag set is
never cleared. -/
def redisSet (key : Key) (value : PyVal) (ttl : Option ℤ)
    (tags : Option (List String)) (st : RedisState) : Bool × RedisState :=
  if st.initialized then
    let entryTtl := if ttlTruthy ttl then ttl else Option.none
    let st1 := { st with store := dictSet key { value := value, ttl := entryTtl } st.store }
    match tags with
    | some ts =>
      if ts.isEmpty then (true, st1)
      else
        let tagKey := key ++ ":tags"
        let oldEntry := dictGet tagKey st1.tagSets
        let oldTags := (oldEntry.map Prod.fst).getD []
        let newTtl :=
          if ttlTruthy ttl then ttl else (oldEntry.map Prod.snd).getD Option.none
        (true, { st1 with tagSets := dictSet tagKey (saddAll oldTags ts, newTtl) st1.tagSets })
    | Option.none => (true, st1)
  else (false, st)

/-! ### MongoBackend (document store) -/

structure MongoDoc where
  key : Key
  value : PyVal
  tags : List String
  createdAt : ℤ
  accessedAt : ℤ
  accessCount : ℕ
  expiresAt : Option ℤ

structure MongoState where
  docs : List (Key × MongoDoc)
  initialized : Bool

def mongoInit : MongoState := { docs := [], initialized := true }

/-- `MongoBackend.set`: builds a fresh document (tags `tags or []`,
`expires_at` set only when `ttl` is truthy) and `replace_one(..., upsert=True)`
replaces any existing document for the key wholesale. -/
def mongoSet (now : ℤ) (key : Key) (value : PyVal) (ttl : Option ℤ)
    (tags : Option (List String)) (st : MongoState) : Bool × MongoState :=
  if st.initialized then
    let expiresAt : Option ℤ :=
      match ttl with
      | some t => if t ≠ 0 then some (now + t) else Option.none
      | Option.none => Option.none
    let doc : MongoDoc :=
      { key := key, value := value, tags := tags.getD [], createdAt := now,
        accessedAt := now, accessCount := 0, expiresAt := expiresAt }
    (true, { st with docs := dictSet key doc st.docs })
  else (false, st)

/-! ### ClusterManager: consistent-hash ring

`self.consistent_hash_ring` is a dict from 32-bit hash values to node ids
(distinct hash keys); both routing functions re-sort its keys themselves.
`_hash_key` is `int(md5(key).hexdigest(), 16) % 2**32`; MD5 itself is opaque
here, so the functions take the raw MD5 integer / the key's ring position as
input. -/

abbrev Ring := List (ℕ × String)

/-- `ClusterManager._hash_key` applied to the (opaque) MD5 integer. -/
def hashKey (md5num : ℕ) : ℕ := md5num % 2 ^ 32

/-- Generic association-list lookup for arbitrary key types
(`dictGet` is specialised to string keys). -/
def assocGet {κ β : Type} [DecidableEq κ] (k : κ) : List (κ × β) → Option β
  | [] => Option.none
  | (k', v') :: rest => if k' = k then some v' else assocGet k rest

/-- `self.consistent_hash_ring[h]` — defined for every `h` drawn from the
ring's key set; the default is never reached there. -/
def ringLookup (ring : Ring) (h : ℕ) : String :=
  (assocGet h ring).getD ""

/-- `sorted(self.consistent_hash_ring.keys())`. -/
def sortedHashes (ring : Ring) : List ℕ :=
  List.insertionSort (· ≤ ·) (ring.map Prod.fst)

/-- `min(self.consistent_hash_ring.keys())` for a non-empty key list. -/
def listMin : List ℕ → ℕ
  | [] => 0
  | x :: xs => xs.foldl Nat.min x

/-- `ClusterManager.get_node_for_key`, given the key's ring position
`kh = _hash_key(key)`: `None` on an empty ring; otherwise the node at the
first sorted ring point `≥ kh`, wrapping to the minimum point. -/
def getNodeForKey (ring : Ring) (kh : ℕ) : Option String :=
  if ring.isEmpty then Option.none
  else
    match (sortedHashes ring).find? (fun h => decide (kh ≤ h)) with
    | some h => some (ringLookup ring h)
    | Option.none => some (ringLookup ring (listMin (ring.map Prod.fst)))

/-- The `start_idx` scan of `_get_replica_nodes`: index of the first sorted
hash `≥ kh`, else (no `break` taken) the initial value `0`. -/
def firstGEIdxAux (kh : ℕ) : List ℕ → Option ℕ
  | [] => Option.none
  | h :: rest => if kh ≤ h then some 0 else (firstGEIdxAux kh rest).map (· + 1)

def firstGEIdx (kh : ℕ) (hashes : List ℕ) : ℕ :=
  (firstGEIdxAux kh hashes).getD 0

/-- `ClusterManager._get_replica_nodes(key, replication_factor)` with
`kh = _hash_key(key)`: empty ring gives `[]`; otherwise walk the
`replication_factor` *consecutive ring points* clockwise from `start_idx`
(indices mod the ring size) and accumulate node ids, skipping ones already
collected.  It does not keep walking to reach `replication_factor` distinct
nodes. -/
def getReplicaNodes (ring : Ring) (kh : ℕ) (replicationFactor : ℕ) :
    List String :=
  if ring.isEmpty then []
  else
    let sh := sortedHashes ring
    let start := firstGEIdx kh sh
    (List.range replicationFactor).foldl
      (fun acc i =>
        let nid := ringLookup ring (sh.getD ((start + i) % sh.length) 0)
        if acc.contains nid then acc else acc ++ [nid])
      []

/-- The node id at the `i`-th of the consecutive ring points the replica scan
visits. -/
def replicaWindow (ring : Ring) (kh : ℕ) (replicationFactor : ℕ) :
    List String :=
  (List.range replicationFactor).map (fun i =>
    ringLookup ring
      ((sortedHashes ring).getD ((firstGEIdx kh (sortedHashes ring) + i) %
        (sortedHashes ring).length) 0))

/-- First-occurrence deduplication (`if node_id not in replica_nodes`). -/
def dedupKeepFirst (l : List String) : List String :=
  l.foldl (fun acc x => if acc.contains x then acc else acc ++ [x]) []

/-- Modelled from the spec: `replicaSetFor(key, n)` "returns the owner plus
the next `n-1` distinct nodes walking clockwise around the ring" — walk every
ring point clockwise from the key's position, collect distinct node ids, and
take the first `n`.  This is the spec's wording, to be compared with
`getReplicaNodes` (the code). -/
def specReplicaSetFor (ring : Ring) (kh : ℕ) (n : ℕ) : List String :=
  if ring.isEmpty then []
  else
    let sh := sortedHashes ring
    let start := firstGEIdx kh sh
    (dedupKeepFirst ((List.range sh.length).map (fun i =>
      ringLookup ring (sh.getD ((start + i) % sh.length) 0)))).take n

/-! ### The `/cache/replicate` peer endpoint (`routers/cache.py`) -/

/-- `int(time.time() / 3600)`: real division then truncation toward zero;
`Int.tdiv` truncates toward zero, matching Python's `int()` on the quotient
(timestamps are non-negative, where floor and truncation agree anyway). -/
def hourWindow (now : ℤ) : ℤ := Int.tdiv now 3600

/-- The `expected_secret` the endpoint computes:
`f"replicate-{settings.node_id}-{int(time.time() / 3600)}"` — rotating
hourly.  The code computes this value and never compares it to the request
header. -/
def expectedSecret (nodeId : String) (now : ℤ) : String :=
  "replicate-" ++ nodeId ++ "-" ++ toString (hourWindow now)

inductive ReplicateResult where
  | forbidden          -- HTTP 403 "Replication not allowed"
  | badRequest         -- HTTP 400 "Key and value are required"
  | ok (success : Bool)

/-- `replicate_cache`: reject (403) when the `X-Replication-Secret` header is
missing, empty, or does not start with `"replicate-"` (`if not secret or not
secret.startswith("replicate-")`); reject (400) a falsy key or a `None`
value; otherwise apply the pushed write via `cache_manager.set(key, value,
ttl)` and report its success flag. -/
def replicateCache (ctx : Ctx) (now : ℤ) (secret : Option String)
    (key : Option Key) (value : Option PyVal) (ttl : Option ℤ)
    (st : CMState) : ReplicateResult × CMState :=
  let secretOk :=
    match secret with
    | Option.none => false
    | some s => !s.isEmpty && "replicate-".toList.isPrefixOf s.toList
  if secretOk then
    match key, value with
    | some k, some v =>
      if k.isEmpty then (ReplicateResult.badRequest, st)
      else
        let r := cmSet ctx now k v ttl Option.none st
        (ReplicateResult.ok r.1, r.2)
    | _, _ => (ReplicateResult.badRequest, st)
  else (ReplicateResult.forbidden, st)

/-! ### Derived notions and concrete fixtures used by the theorems -/

/-- The total estimated size of the cached items, the quantity
`current_size` is meant to track. -/
def sumSizes (ctx : Ctx) (l : List (Key × CacheItem)) : ℤ :=
  (l.map (fun p => ctx.sizeOf p.2.value)).sum

/-- The bookkeeping invariant of `MemoryBackend`: `current_size` equals the
summed item sizes, and the dict keys are distinct (a dict). -/
def sizeConsistent (ctx : Ctx) (st : MemState) : Prop :=
  st.currentSize = sumSizes ctx st.cache ∧ (st.cache.map Prod.fst).Nodup

/-- One `set(now, key, value, ttl, tags)` request. -/
structure SetOp where
  now : ℤ
  key : Key
  value : PyVal
  ttl : Option ℤ
  tags : Option (List String)

def applySet (ctx : Ctx) (st : MemState) (op : SetOp) : MemState :=
  (memSet ctx op.now op.key op.value op.ttl op.tags st).2

/-- A sequence of `set` operations, applied in order. -/
def applySets (ctx : Ctx) (ops : List SetOp) (st : MemState) : MemState :=
  ops.foldl (applySet ctx) st

/-- A concrete configuration for the concrete test states: every payload is
estimated at 6 bytes, defaults as in `config.Settings`, LRU strategy. -/
def ctxLru : Ctx :=
  { sizeOf := fun _ => 6, defaultTtl := 3600, maxItemSizeKb := 1024,
    strategy := Strategy.lru }

/-- A live item (ttl 100, created at 0) whose `accessed_at` (1) is the oldest
in `c2St`. -/
def itemA : CacheItem :=
  { key := "a", value := PyVal.int 1, ttl := 100, createdAt := 0,
    accessedAt := 1, accessCount := 0, tags := [], metadata := [] }

/-- An item that is long expired at `now = 50` (ttl 1, created at 0) but was
accessed more recently (`accessed_at = 2`). -/
def itemE : CacheItem :=
  { key := "e", value := PyVal.int 2, ttl := 1, createdAt := 0,
    accessedAt := 2, accessCount := 0, tags := [], metadata := [] }

/-- An over-budget memory backend (12 bytes used of 10 allowed) holding
`itemA` and `itemE`. -/
def c2St : MemState :=
  { cache := [("a", itemA), ("e", itemE)], maxSize := 10, currentSize := 12,
    initialized := true }

/-- An item with ttl 5 created at time 0. -/
def itemT : CacheItem :=
  { key := "k", value := PyVal.int 7, ttl := 5, createdAt := 0,
    accessedAt := 0, accessCount := 0, tags := [], metadata := [] }

def c4St : MemState :=
  { cache := [("k", itemT)], maxSize := 1000, currentSize := 6,
    initialized := true }

/-- An item tagged `["lang", "python"]`. -/
def itemL : CacheItem :=
  { key := "k", value := PyVal.int 3, ttl := 100, createdAt := 0,
    accessedAt := 0, accessCount := 0, tags := ["lang", "python"],
    metadata := [] }

def c1St : CMState :=
  { metrics := metricsInit,
    mem := { cache := [("k", itemL)], maxSize := 1000, currentSize := 6,
             initialized := true } }

/-- An item whose stored *value* is Python `None`. -/
def itemN : CacheItem :=
  { key := "n", value := PyVal.none, ttl := 100, createdAt := 0,
    accessedAt := 0, accessCount := 0, tags := [], metadata := [] }

def c10St : CMState :=
  { metrics := metricsInit,
    mem := { cache := [("n", itemN)], maxSize := 1000, currentSize := 6,
             initialized := true } }

/-- Redis state after `set("k", 1, tags=["a"])` on a fresh backend. -/
def c3FirstSet : RedisState :=
  (redisSet "k" (PyVal.int 1) Option.none (some ["a"]) redisInit).2

/-- ... and after a second `set("k", 2, tags=["b"])` of the same key. -/
def c3SecondSet : RedisState :=
  (redisSet "k" (PyVal.int 2) Option.none (some ["b"]) c3FirstSet).2

/-- A 4-point ring over three online nodes where the two points after the
position of hash 5 belong to the same physical node `A`. -/
def ring0 : Ring := [(10, "A"), (20, "A"), (30, "B"), (40, "C")]

/-! ## Association-list lemmas -/


theorem dictGet_dictSet_self {β : Type} (k : Key) (v : β) (l : List (Key × β)) :
    dictGet k (dictSet k v l) = some v := by
  induction l with
  | nil => simp [dictSet, dictGet]
  | cons p rest ih =>
    obtain ⟨k', v'⟩ := p
    by_cases h : k' = k
    · simp [dictSet, dictGet, h]
    · simp [dictSet, dictGet, h, ih]

theorem dictGet_mem {β : Type} {k : Key} {b : β} {l : List (Key × β)}
    (h : dictGet k l = some b) : (k, b) ∈ l := by
  induction l with
  | nil => simp [dictGet] at h
  | cons p rest ih =>
    obtain ⟨k', v'⟩ := p
    by_cases hk : k' = k
    · subst hk
      simp [dictGet] at h
      subst h
      exact List.mem_cons_self _ _
    · simp [dictGet, hk] at h
      exact List.mem_cons_of_mem _ (ih h)

theorem dictGet_eq_none_iff {β : Type} {k : Key} {l : List (Key × β)} :
    dictGet k l = Option.none ↔ k ∉ l.map Prod.fst := by
  induction l with
  | nil => simp [dictGet]
  | cons p rest ih =>
    obtain ⟨k', v'⟩ := p
    by_cases hk : k' = k
    · subst hk
      simp [dictGet]
    · simp [dictGet, hk, ih, Ne.symm hk]

theorem mem_dictSet_self {β : Type} (k : Key) (v : β) (l : List (Key × β)) :
    (k, v) ∈ dictSet k v l := by
  induction l with
  | nil => simp [dictSet]
  | cons p rest ih =>
    obtain ⟨k', v'⟩ := p
    by_cases h : k' = k
    · simp [dictSet, h]
    · simp [dictSet, h]
      right
      exact ih

theorem map_fst_dictSet_of_present {β : Type} {k : Key} {l : List (Key × β)}
    (v : β) (h : dictGet k l ≠ Option.none) :
    (dictSet k v l).map Prod.fst = l.map Prod.fst := by
  induction l with
  | nil => simp [dictGet] at h
  | cons p rest ih =>
    obtain ⟨k', v'⟩ := p
    by_cases hk : k' = k
    · subst hk
      simp [dictSet]
    · simp [dictGet, hk] at h
      simp [dictSet, hk, ih h]

theorem map_fst_dictSet_of_absent {β : Type} {k : Key} {l : List (Key × β)}
    (v : β) (h : dictGet k l = Option.none) :
    (dictSet k v l).map Prod.fst = l.map Prod.fst ++ [k] := by
  induction l with
  | nil => simp [dictSet]
  | cons p rest ih =>
    obtain ⟨k', v'⟩ := p
    by_cases hk : k' = k
    · subst hk
      simp [dictGet] at h
    · simp [dictGet, hk] at h
      simp [dictSet, hk, ih h]

theorem nodup_dictSet {β : Type} {k : Key} {l : List (Key × β)} (v : β)
    (h : (l.map Prod.fst).Nodup) : ((dictSet k v l).map Prod.fst).Nodup := by
  cases hg : dictGet k l with
  | some b =>
    rw [map_fst_dictSet_of_present v (by simp [hg])]
    exact h
  | none =>
    rw [map_fst_dictSet_of_absent v hg]
    have hk : k ∉ l.map Prod.fst := dictGet_eq_none_iff.mp hg
    simp [List.nodup_append, h, hk]

theorem mem_key_unique {β : Type} {k : Key} {a b : β} {l : List (Key × β)}
    (hnd : (l.map Prod.fst).Nodup) (ha : (k, a) ∈ l) (hb : (k, b) ∈ l) :
    a = b := by
  induction l with
  | nil => simp at ha
  | cons p rest ih =>
    obtain ⟨k', v'⟩ := p
    simp only [List.map_cons, List.nodup_cons] at hnd
    rcases List.mem_cons.mp ha with ha1 | ha2 <;>
      rcases List.mem_cons.mp hb with hb1 | hb2
    · rw [Prod.mk.injEq] at ha1 hb1
      rw [ha1.2, hb1.2]
    · exfalso
      rw [Prod.mk.injEq] at ha1
      exact hnd.1 (ha1.1 ▸ (List.mem_map_of_mem Prod.fst hb2))
    · exfalso
      rw [Prod.mk.injEq] at hb1
      exact hnd.1 (hb1.1 ▸ (List.mem_map_of_mem Prod.fst ha2))
    · exact ih hnd.2 ha2 hb2

theorem dictGet_removeKey_self {β : Type} (k : Key) (l : List (Key × β)) :
    dictGet k (removeKey k l) = Option.none := by
  rw [dictGet_eq_none_iff]
  intro hmem
  obtain ⟨p, hp, hfst⟩ := List.mem_map.mp hmem
  have := List.mem_filter.mp hp
  simp [hfst] at this

theorem removeKey_eq_self {β : Type} {k : Key} {l : List (Key × β)}
    (h : k ∉ l.map Prod.fst) : removeKey k l = l := by
  unfold removeKey
  rw [List.filter_eq_self]
  intro p hp
  simp only [decide_eq_true_eq]
  intro hk
  exact h (hk ▸ List.mem_map_of_mem Prod.fst hp)

theorem nodup_removeKey {β : Type} (k : Key) {l : List (Key × β)}
    (h : (l.map Prod.fst).Nodup) : ((removeKey k l).map Prod.fst).Nodup :=
  h.sublist ((List.filter_sublist l).map Prod.fst)

theorem removeKey_subset {β : Type} (k : Key) (l : List (Key × β)) :
    removeKey k l ⊆ l :=
  fun _ ha => (List.mem_filter.mp ha).1

/-- The key step for the eviction loop: popping the head `(k, it)` of the
candidate permutation and `del`-ing `k` from the cache leaves a cache that is
a permutation of the remaining candidates. -/
theorem removeKey_perm {k : Key} {it : CacheItem}
    {l rest : List (Key × CacheItem)}
    (hperm : l.Perm ((k, it) :: rest)) (hnd : (l.map Prod.fst).Nodup) :
    (removeKey k l).Perm rest := by
  have hfil : (removeKey k l).Perm (((k, it) :: rest).filter (fun p => p.1 ≠ k)) :=
    hperm.filter _
  have hrest : ((k, it) :: rest).filter (fun p => p.1 ≠ k) = rest := by
    have hnd' : ((((k, it) :: rest)).map Prod.fst).Nodup :=
      (hperm.map Prod.fst).nodup hnd
    simp only [List.map_cons, List.nodup_cons] at hnd'
    simp [List.filter_cons, List.filter_eq_self]
    intro a b hab hk
    exact hnd'.1 (hk ▸ List.mem_map_of_mem Prod.fst hab)
  rw [hrest] at hfil
  exact hfil

/-! ## Size accounting -/

theorem sumSizes_perm (ctx : Ctx) {l l' : List (Key × CacheItem)}
    (h : l.Perm l') : sumSizes ctx l = sumSizes ctx l' :=
  (h.map _).sum_eq

theorem sumSizes_cons (ctx : Ctx) (p : Key × CacheItem)
    (l : List (Key × CacheItem)) :
    sumSizes ctx (p :: l) = ctx.sizeOf p.2.value + sumSizes ctx l := by
  simp [sumSizes]

theorem sumSizes_dictSet_absent (ctx : Ctx) {k : Key} (it : CacheItem)
    {l : List (Key × CacheItem)} (h : dictGet k l = Option.none) :
    sumSizes ctx (dictSet k it l) = sumSizes ctx l + ctx.sizeOf it.value := by
  induction l with
  | nil => simp [dictSet, sumSizes]
  | cons p rest ih =>
    obtain ⟨k', v'⟩ := p
    by_cases hk : k' = k
    · subst hk
      simp [dictGet] at h
    · simp [dictGet, hk] at h
      simp [dictSet, hk, sumSizes_cons, ih h]
      ring

theorem sumSizes_dictSet_present (ctx : Ctx) {k : Key} (it : CacheItem)
    {old : CacheItem} {l : List (Key × CacheItem)}
    (h : dictGet k l = some old) :
    sumSizes ctx (dictSet k it l) =
      sumSizes ctx l - ctx.sizeOf old.value + ctx.sizeOf it.value := by
  induction l with
  | nil => simp [dictGet] at h
  | cons p rest ih =>
    obtain ⟨k', v'⟩ := p
    by_cases hk : k' = k
    · subst hk
      simp [dictGet] at h
      subst h
      simp [dictSet, sumSizes_cons]
      ring
    · simp [dictGet, hk] at h
      simp [dictSet, hk, sumSizes_cons, ih h]
      ring

/-! ## Eviction-loop invariants -/

theorem sortByPolicy_perm (strat : Strategy) (l : List (Key × CacheItem)) :
    (sortByPolicy strat l).Perm l := by
  cases strat with
  | lru => exact List.perm_insertionSort byAccessed l
  | lfu => exact List.perm_insertionSort byCount l
  | fifo => exact List.perm_insertionSort byCreated l
  | random => exact List.Perm.refl l

theorem evictLoop_cache_subset (ctx : Ctx) :
    ∀ (l : List (Key × CacheItem)) (st : MemState),
    (evictLoop ctx l st).cache ⊆ st.cache := by
  intro l
  induction l with
  | nil => intro st; exact fun _ h => h
  | cons p rest ih =>
    intro st
    obtain ⟨k, it⟩ := p
    unfold evictLoop
    by_cases hc : 5 * st.currentSize > 4 * st.maxSize
    · rw [if_pos hc]
      intro a ha
      exact removeKey_subset k st.cache (ih _ ha)
    · rw [if_neg hc]
      exact fun _ h => h

/-- Running the eviction loop on any permutation of the cache (a) keeps the
bookkeeping invariant, (b) keeps `max_size`, and (c) can only stop while
still above the 80% target by having emptied the cache. -/
theorem evictLoop_spec (ctx : Ctx) :
    ∀ (l : List (Key × CacheItem)) (st : MemState),
    st.cache.Perm l → (st.cache.map Prod.fst).Nodup →
    st.currentSize = sumSizes ctx st.cache →
    ((evictLoop ctx l st).currentSize = sumSizes ctx (evictLoop ctx l st).cache ∧
      ((evictLoop ctx l st).cache.map Prod.fst).Nodup) ∧
    (evictLoop ctx l st).maxSize = st.maxSize ∧
    (5 * (evictLoop ctx l st).currentSize > 4 * (evictLoop ctx l st).maxSize →
      (evictLoop ctx l st).cache = []) := by
  intro l
  induction l with
  | nil =>
    intro st hperm hnd hsum
    have hnil : st.cache = [] := hperm.eq_nil
    refine ⟨⟨hsum, hnd⟩, rfl, fun _ => hnil⟩
  | cons p rest ih =>
    intro st hperm hnd hsum
    obtain ⟨k, it⟩ := p
    unfold evictLoop
    by_cases hc : 5 * st.currentSize > 4 * st.maxSize
    · rw [if_pos hc]
      set st' : MemState :=
        { st with cache := removeKey k st.cache,
                  currentSize := st.currentSize - ctx.sizeOf it.value } with hst'
      have hperm' : st'.cache.Perm rest := removeKey_perm hperm hnd
      have hnd' : (st'.cache.map Prod.fst).Nodup := nodup_removeKey k hnd
      have hsum' : st'.currentSize = sumSizes ctx st'.cache := by
        have h1 : sumSizes ctx st.cache = sumSizes ctx ((k, it) :: rest) :=
          sumSizes_perm ctx hperm
        have h2 : sumSizes ctx st'.cache = sumSizes ctx rest :=
          sumSizes_perm ctx hperm'
        rw [hst']
        simp only [h2, hsum, h1, sumSizes_cons]
        ring
      have := ih st' hperm' hnd' hsum'
      exact ⟨this.1, this.2.1, this.2.2⟩
    · rw [if_neg hc]
      exact ⟨⟨hsum, hnd⟩, rfl, fun h => absurd h hc⟩

/-- `_evict_if_needed` keeps the bookkeeping invariant and leaves
`current_size ≤ max_size`; when it actually had to evict, it lands at or
below the 80% target. -/
theorem evictIfNeeded_spec (ctx : Ctx) (st : MemState)
    (h : sizeConsistent ctx st) (hm : 0 ≤ st.maxSize) :
    sizeConsistent ctx (evictIfNeeded ctx st) ∧
    (evictIfNeeded ctx st).maxSize = st.maxSize ∧
    (evictIfNeeded ctx st).currentSize ≤ st.maxSize ∧
    (st.maxSize < st.currentSize →
      5 * (evictIfNeeded ctx st).currentSize ≤ 4 * st.maxSize) := by
  unfold evictIfNeeded
  by_cases hb : st.currentSize ≤ st.maxSize
  · rw [if_pos hb]
    exact ⟨h, rfl, hb, fun hlt => absurd hb (not_le.mpr hlt)⟩
  · rw [if_neg hb]
    obtain ⟨hsum, hnd⟩ := h
    have hspec := evictLoop_spec ctx (sortByPolicy ctx.strategy st.cache) st
      (sortByPolicy_perm ctx.strategy st.cache).symm hnd hsum
    obtain ⟨⟨hsum', hnd'⟩, hmax', hstop⟩ := hspec
    set r := evictLoop ctx (sortByPolicy ctx.strategy st.cache) st
    have htarget : 5 * r.currentSize ≤ 4 * st.maxSize := by
      by_cases hcond : 5 * r.currentSize > 4 * r.maxSize
      · have hempty := hstop hcond
        have : r.currentSize = 0 := by
          rw [hsum', hempty]
          simp [sumSizes]
        rw [this]
        linarith
      · rw [hmax'] at hcond
        linarith
    refine ⟨⟨hsum', hnd'⟩, hmax', ?_, fun _ => htarget⟩
    linarith

/-- The LRU eviction loop on a `byAccessed`-sorted candidate list only ever
removes items whose `accessed_at` is at most that of every survivor. -/
theorem evictLoop_evicted_le (ctx : Ctx) :
    ∀ (l : List (Key × CacheItem)) (st : MemState),
    st.cache.Perm l → (st.cache.map Prod.fst).Nodup →
    l.Pairwise byAccessed →
    ∀ p ∈ st.cache, p ∉ (evictLoop ctx l st).cache →
    ∀ q ∈ (evictLoop ctx l st).cache, byAccessed p q := by
  intro l
  induction l with
  | nil =>
    intro st hperm _ _ p hp hnp q hq
    exact absurd hp hnp
  | cons hd rest ih =>
    intro st hperm hnd hpw p hp hnp q hq
    obtain ⟨k, it⟩ := hd
    unfold evictLoop at hnp hq
    by_cases hc : 5 * st.currentSize > 4 * st.maxSize
    · rw [if_pos hc] at hnp hq
      set st' : MemState :=
        { st with cache := removeKey k st.cache,
                  currentSize := st.currentSize - ctx.sizeOf it.value } with hst'
      have hperm' : st'.cache.Perm rest := removeKey_perm hperm hnd
      have hnd' : (st'.cache.map Prod.fst).Nodup := nodup_removeKey k hnd
      rw [List.pairwise_cons] at hpw
      by_cases hpk : p.1 = k
      · -- `p` is the entry removed at this step
        have hkit : (k, it) ∈ st.cache := hperm.symm.subset (List.mem_cons_self _ _)
        have hpeq : p = (k, it) := by
          have : p = (k, p.2) := by
            rw [← hpk]
          rw [this] at hp ⊢
          have := mem_key_unique hnd hp hkit
          rw [this]
        have hq' : q ∈ st'.cache := evictLoop_cache_subset ctx rest st' hq
        have hqrest : q ∈ rest := hperm'.subset hq'
        rw [hpeq]
        exact hpw.1 q hqrest
      · have hp' : p ∈ st'.cache := by
          rw [hst']
          exact List.mem_filter.mpr ⟨hp, by simpa using hpk⟩
        exact ih st' hperm' hnd' hpw.2 p hp' hnp q hq
    · rw [if_neg hc] at hnp hq
      exact absurd hp hnp

/-! ## `set` preserves the bookkeeping invariant and the byte budget -/

theorem memSet_spec (ctx : Ctx) (now : ℤ) (key : Key) (value : PyVal)
    (ttl : Option ℤ) (tags : Option (List String)) (st : MemState)
    (h : sizeConsistent ctx st) (hm : 0 ≤ st.maxSize) :
    sizeConsistent ctx (memSet ctx now key value ttl tags st).2 ∧
    (memSet ctx now key value ttl tags st).2.maxSize = st.maxSize ∧
    ((memSet ctx now key value ttl tags st).1 = true →
      (memSet ctx now key value ttl tags st).2.currentSize ≤ st.maxSize) ∧
    (st.currentSize ≤ st.maxSize →
      (memSet ctx now key value ttl tags st).2.currentSize ≤ st.maxSize) := by
  unfold memSet
  by_cases hinit : st.initialized
  · rw [if_pos hinit]
    simp only
    by_cases hbig : ctx.sizeOf value > ctx.maxItemSizeKb * 1024
    · rw [if_pos hbig]
      exact ⟨h, rfl, fun hfalse => absurd hfalse (by simp), fun hb => hb⟩
    · rw [if_neg hbig]
      simp only
      obtain ⟨hsum, hnd⟩ := h
      -- the state after removing the replaced size and inserting the new item
      cases hold : dictGet key st.cache with
      | some old =>
        set st2 : MemState :=
          { st with cache := dictSet key (mkCacheItem ctx now key value ttl tags) st.cache,
                    currentSize := st.currentSize - ctx.sizeOf old.value + ctx.sizeOf value }
            with hst2
        have h2 : sizeConsistent ctx st2 := by
          constructor
          · rw [hst2]
            simp only
            rw [sumSizes_dictSet_present ctx _ hold, hsum]
            simp [mkCacheItem]
          · exact nodup_dictSet _ hnd
        have := evictIfNeeded_spec ctx st2 h2 (by rw [hst2]; exact hm)
        refine ⟨this.1, by rw [this.2.1], fun _ => this.2.2.1, fun _ => this.2.2.1⟩
      | none =>
        set st2 : MemState :=
          { st with cache := dictSet key (mkCacheItem ctx now key value ttl tags) st.cache,
                    currentSize := st.currentSize + ctx.sizeOf value }
            with hst2
        have h2 : sizeConsistent ctx st2 := by
          constructor
          · rw [hst2]
            simp only
            rw [sumSizes_dictSet_absent ctx _ hold, hsum]
            simp [mkCacheItem]
          · exact nodup_dictSet _ hnd
        have := evictIfNeeded_spec ctx st2 h2 (by rw [hst2]; exact hm)
        refine ⟨this.1, by rw [this.2.1], fun _ => this.2.2.1, fun _ => this.2.2.1⟩
  · rw [if_neg hinit]
    exact ⟨h, rfl, fun hfalse => absurd hfalse (by simp), fun hb => hb⟩

theorem applySets_spec (ctx : Ctx) :
    ∀ (ops : List SetOp) (st : MemState),
    sizeConsistent ctx st → 0 ≤ st.maxSize → st.currentSize ≤ st.maxSize →
    sizeConsistent ctx (applySets ctx ops st) ∧
    (applySets ctx ops st).maxSize = st.maxSize ∧
    (applySets ctx ops st).currentSize ≤ st.maxSize := by
  intro ops
  induction ops with
  | nil => intro st h hm hb; exact ⟨h, rfl, hb⟩
  | cons op rest ih =>
    intro st h hm hb
    have hstep := memSet_spec ctx op.now op.key op.value op.ttl op.tags st h hm
    have hnext := ih (applySet ctx st op) hstep.1
      (by rw [applySet, hstep.2.1]; exact hm)
      (by rw [applySet, hstep.2.1]; exact hstep.2.2.2 hb)
    simp only [applySets, List.foldl_cons] at *
    exact ⟨hnext.1, by rw [hnext.2.1, applySet, hstep.2.1],
      by rw [← hstep.2.1, ← applySet]; exact hnext.2.2⟩

theorem evictIfNeeded_cache_subset (ctx : Ctx) (st : MemState) :
    (evictIfNeeded ctx st).cache ⊆ st.cache := by
  unfold evictIfNeeded
  by_cases hbud : st.currentSize ≤ st.maxSize
  · rw [if_pos hbud]
    exact fun _ h => h
  · rw [if_neg hbud]
    exact evictLoop_cache_subset ctx _ st

/-- The shape of a `set` that passes the initialization and item-size
checks: it succeeds and its final state is `_evict_if_needed` applied to the
cache with the freshly constructed item installed. -/
theorem memSet_success_shape (ctx : Ctx) (now : ℤ) (key : Key) (value : PyVal)
    (ttl : Option ℤ) (tags : Option (List String)) (st : MemState)
    (hinit : st.initialized = true)
    (hbig : ¬ ctx.sizeOf value > ctx.maxItemSizeKb * 1024) :
    ∃ c : ℤ,
      memSet ctx now key value ttl tags st =
        (true, evictIfNeeded ctx
          { cache := dictSet key (mkCacheItem ctx now key value ttl tags) st.cache,
            maxSize := st.maxSize, currentSize := c,
            initialized := st.initialized }) := by
  unfold memSet
  rw [if_pos hinit, if_neg hbig]
  cases hold : dictGet key st.cache with
  | some old =>
    exact ⟨st.currentSize - ctx.sizeOf old.value + ctx.sizeOf value, rfl⟩
  | none =>
    exact ⟨st.currentSize + ctx.sizeOf value, rfl⟩

/-- Whatever entry a successful `set` leaves under `key` is exactly the item
it constructed (eviction can remove it, never replace it). -/
theorem memSet_lookup_value (ctx : Ctx) (now : ℤ) (key : Key) (value : PyVal)
    (ttl : Option ℤ) (tags : Option (List String)) (st : MemState)
    {it' : CacheItem}
    (hnd : (st.cache.map Prod.fst).Nodup)
    (hsucc : (memSet ctx now key value ttl tags st).1 = true)
    (hl : dictGet key (memSet ctx now key value ttl tags st).2.cache = some it') :
    it' = mkCacheItem ctx now key value ttl tags := by
  by_cases hinit : st.initialized = true
  · by_cases hbig : ctx.sizeOf value > ctx.maxItemSizeKb * 1024
    · exfalso
      unfold memSet at hsucc
      rw [if_pos hinit] at hsucc
      simp only at hsucc
      rw [if_pos hbig] at hsucc
      simp at hsucc
    · obtain ⟨c, hc⟩ := memSet_success_shape ctx now key value ttl tags st hinit hbig
      rw [hc] at hl
      have hmem := dictGet_mem hl
      have hmem2 := evictIfNeeded_cache_subset ctx _ hmem
      exact mem_key_unique (nodup_dictSet _ hnd) hmem2 (mem_dictSet_self _ _ _)
  · exfalso
    unfold memSet at hsucc
    rw [if_neg hinit] at hsucc
    simp at hsucc

/-- `MemoryBackend.get` never introduces duplicate keys. -/
theorem memGet_nodup (ctx : Ctx) (now : ℤ) (key : Key) (st : MemState)
    (hnd : (st.cache.map Prod.fst).Nodup) :
    ((memGet ctx now key st).2.cache.map Prod.fst).Nodup := by
  unfold memGet
  by_cases hinit : st.initialized
  · rw [if_pos hinit]
    cases hold : dictGet key st.cache with
    | some item =>
      simp only
      by_cases hexp : item.isExpiredAt now
      · rw [if_pos hexp]
        exact nodup_removeKey key hnd
      · rw [if_neg hexp]
        exact nodup_dictSet _ hnd
    | none => exact hnd
  · rw [if_neg hinit]
    exact hnd

/-! ## `SADD` accumulation lemmas -/

theorem sadd_step_subset (acc : List String) (x : String) :
    acc ⊆ (if acc.contains x then acc else acc ++ [x]) := by
  by_cases h : acc.contains x
  · rw [if_pos h]
    exact fun _ ha => ha
  · rw [if_neg h]
    exact List.subset_append_left acc [x]

theorem saddAll_subset_left : ∀ (new old : List String), old ⊆ saddAll old new := by
  intro new
  induction new with
  | nil => intro old; exact fun _ h => h
  | cons x rest ih =>
    intro old
    have h1 : old ⊆ (if old.contains x then old else old ++ [x]) :=
      sadd_step_subset old x
    have h2 := ih (if old.contains x then old else old ++ [x])
    intro a ha
    exact h2 (h1 ha)

theorem saddAll_mem_right : ∀ (new old : List String), ∀ t ∈ new, t ∈ saddAll old new := by
  intro new
  induction new with
  | nil => intro old t ht; simp at ht
  | cons x rest ih =>
    intro old t ht
    rcases List.mem_cons.mp ht with h | h
    · subst h
      have hx : t ∈ (if old.contains t then old else old ++ [t]) := by
        by_cases hc : old.contains t
        · rw [if_pos hc]
          have : old.contains t = true := hc
          simpa using this
        · rw [if_neg hc]
          simp
      exact saddAll_subset_left rest _ hx
    · exact ih _ t h

/-! ## Minimum and sorted-search lemmas for the hash ring -/

theorem foldl_min_le (xs : List ℕ) : ∀ (a : ℕ),
    (xs.foldl Nat.min a = a ∨ xs.foldl Nat.min a ∈ xs) ∧
    xs.foldl Nat.min a ≤ a ∧ ∀ y ∈ xs, xs.foldl Nat.min a ≤ y := by
  induction xs with
  | nil => intro a; exact ⟨Or.inl rfl, le_refl a, by simp⟩
  | cons x rest ih =>
    intro a
    have h := ih (Nat.min a x)
    refine ⟨?_, ?_, ?_⟩
    · rcases h.1 with heq | hmem
      · have hfold : (x :: rest).foldl Nat.min a = Nat.min a x := by
          rw [List.foldl_cons]
          exact heq
        rcases le_total a x with hax | hax
        · refine Or.inl ?_
          have hmx : Nat.min a x = a := by
            show (if a ≤ x then a else x) = a
            split <;> omega
          rw [hfold, hmx]
        · refine Or.inr ?_
          have hmx : Nat.min a x = x := by
            show (if a ≤ x then a else x) = x
            split <;> omega
          rw [hfold, hmx]
          exact List.mem_cons_self x rest
      · exact Or.inr (List.mem_cons_of_mem x hmem)
    · calc (x :: rest).foldl Nat.min a = rest.foldl Nat.min (Nat.min a x) := rfl
        _ ≤ Nat.min a x := h.2.1
        _ ≤ a := Nat.min_le_left a x
    · intro y hy
      rcases List.mem_cons.mp hy with hy2 | hy2
      · rw [hy2]
        calc (x :: rest).foldl Nat.min a = rest.foldl Nat.min (Nat.min a x) := rfl
          _ ≤ Nat.min a x := h.2.1
          _ ≤ x := Nat.min_le_right a x
      · exact h.2.2 y hy2

theorem listMin_mem {l : List ℕ} (h : l ≠ []) : listMin l ∈ l := by
  cases l with
  | nil => exact absurd rfl h
  | cons x xs =>
    show xs.foldl Nat.min x ∈ x :: xs
    rcases (foldl_min_le xs x).1 with heq | hmem
    · rw [heq]
      exact List.mem_cons_self x xs
    · exact List.mem_cons_of_mem x hmem

theorem listMin_le {l : List ℕ} : ∀ y ∈ l, listMin l ≤ y := by
  cases l with
  | nil => simp
  | cons x xs =>
    intro y hy
    show xs.foldl Nat.min x ≤ y
    rcases List.mem_cons.mp hy with h | h
    · rw [h]
      exact (foldl_min_le xs x).2.1
    · exact (foldl_min_le xs x).2.2 y h

/-- In a `≤`-sorted list, `find?` of the first element `≥ kh` really returns
the least element `≥ kh`. -/
theorem find_ge_min {l : List ℕ} (kh : ℕ) (hs : List.Sorted (· ≤ ·) l)
    {h : ℕ} (hf : l.find? (fun x => decide (kh ≤ x)) = some h) :
    ∀ h' ∈ l, kh ≤ h' → h ≤ h' := by
  induction l with
  | nil => simp [List.find?] at hf
  | cons x xs ih =>
    have hsx := List.sorted_cons.mp hs
    by_cases hx : kh ≤ x
    · rw [List.find?_cons_of_pos xs (by simpa using hx)] at hf
      injection hf with hf
      subst hf
      intro h' hh' _
      rcases List.mem_cons.mp hh' with h1 | h1
      · rw [h1]
      · exact hsx.1 h' h1
    · rw [List.find?_cons_of_neg xs (by simpa using hx)] at hf
      intro h' hh' hkh'
      rcases List.mem_cons.mp hh' with h1 | h1
      · exact absurd (h1 ▸ hkh') hx
      · exact ih hsx.2 hf h' h1 hkh'

/-- `firstGEIdxAux` returns an in-range index pointing at the value `find?`
returns. -/
theorem firstGEIdxAux_some {kh : ℕ} : ∀ {l : List ℕ} {i : ℕ},
    firstGEIdxAux kh l = some i →
    i < l.length ∧ l.find? (fun x => decide (kh ≤ x)) = some (l.getD i 0) := by
  intro l
  induction l with
  | nil => intro i h; simp [firstGEIdxAux] at h
  | cons x xs ih =>
    intro i h
    unfold firstGEIdxAux at h
    by_cases hx : kh ≤ x
    · rw [if_pos hx] at h
      injection h with h
      subst h
      constructor
      · simp
      · rw [List.find?_cons_of_pos xs (by simpa using hx)]
        simp
    · rw [if_neg hx] at h
      cases haux : firstGEIdxAux kh xs with
      | none => rw [haux] at h; simp at h
      | some j =>
        rw [haux] at h
        simp only [Option.map_some'] at h
        injection h with h
        subst h
        have := ih haux
        constructor
        · simpa using Nat.succ_lt_succ this.1
        · rw [List.find?_cons_of_neg xs (by simpa using hx)]
          simpa using this.2

theorem firstGEIdxAux_none {kh : ℕ} : ∀ {l : List ℕ},
    firstGEIdxAux kh l = Option.none →
    l.find? (fun x => decide (kh ≤ x)) = Option.none := by
  intro l
  induction l with
  | nil => intro _; simp [List.find?]
  | cons x xs ih =>
    intro h
    unfold firstGEIdxAux at h
    by_cases hx : kh ≤ x
    · rw [if_pos hx] at h
      simp at h
    · rw [if_neg hx] at h
      rw [List.find?_cons_of_neg xs (by simpa using hx)]
      cases haux : firstGEIdxAux kh xs with
      | none => exact ih haux
      | some j => rw [haux] at h; simp at h

/-- The head of a sorted permutation of `l` is `min l`. -/
theorem sorted_getD_zero_eq_min {l sh : List ℕ} (hperm : sh.Perm l)
    (hs : List.Sorted (· ≤ ·) sh) (hne : l ≠ []) :
    sh.getD 0 0 = listMin l := by
  have hshne : sh ≠ [] := by
    intro hnil
    rw [hnil] at hperm
    exact hne hperm.symm.eq_nil
  cases hsh : sh with
  | nil => exact absurd hsh hshne
  | cons x xs =>
    subst hsh
    have hsx := List.sorted_cons.mp hs
    have hxmem : x ∈ l := hperm.subset (List.mem_cons_self x xs)
    have h1 : listMin l ≤ x := listMin_le x hxmem
    have h2 : x ≤ listMin l := by
      have hminmem : listMin l ∈ x :: xs := hperm.symm.subset (listMin_mem hne)
      rcases List.mem_cons.mp hminmem with h | h
      · rw [h]
      · exact hsx.1 _ h
    simpa using le_antisymm h2 h1

/-! ## First-occurrence deduplication lemmas -/

theorem dedup_step_nodup (acc : List String) (x : String) (h : acc.Nodup) :
    (if acc.contains x then acc else acc ++ [x]).Nodup := by
  by_cases hc : acc.contains x
  · rw [if_pos hc]; exact h
  · rw [if_neg hc]
    have hx : x ∉ acc := by simpa using hc
    simp [List.nodup_append, h, hx]

theorem dedup_foldl_nodup : ∀ (l acc : List String), acc.Nodup →
    (l.foldl (fun acc x => if acc.contains x then acc else acc ++ [x]) acc).Nodup := by
  intro l
  induction l with
  | nil => intro acc h; exact h
  | cons x rest ih =>
    intro acc h
    exact ih _ (dedup_step_nodup acc x h)

theorem dedupKeepFirst_nodup (l : List String) : (dedupKeepFirst l).Nodup :=
  dedup_foldl_nodup l [] List.nodup_nil

theorem dedup_foldl_length : ∀ (l acc : List String),
    (l.foldl (fun acc x => if acc.contains x then acc else acc ++ [x]) acc).length ≤
      acc.length + l.length := by
  intro l
  induction l with
  | nil => intro acc; simp
  | cons x rest ih =>
    intro acc
    have h := ih (if acc.contains x then acc else acc ++ [x])
    have hstep : (if acc.contains x then acc else acc ++ [x]).length ≤ acc.length + 1 := by
      by_cases hc : acc.contains x
      · rw [if_pos hc]; omega
      · rw [if_neg hc]; simp
    calc ((x :: rest).foldl _ acc).length
        = (rest.foldl _ (if acc.contains x then acc else acc ++ [x])).length := rfl
      _ ≤ (if acc.contains x then acc else acc ++ [x]).length + rest.length := h
      _ ≤ acc.length + 1 + rest.length := by omega
      _ = acc.length + (x :: rest).length := by simp; omega

theorem dedupKeepFirst_length (l : List String) :
    (dedupKeepFirst l).length ≤ l.length := by
  have := dedup_foldl_length l []
  simpa [dedupKeepFirst] using this

theorem dedup_foldl_head : ∀ (l acc : List String), acc ≠ [] →
    (l.foldl (fun acc x => if acc.contains x then acc else acc ++ [x]) acc).head? =
      acc.head? := by
  intro l
  induction l with
  | nil => intro acc _; rfl
  | cons x rest ih =>
    intro acc hne
    have hstep : (if acc.contains x then acc else acc ++ [x]).head? = acc.head? := by
      by_cases hc : acc.contains x
      · rw [if_pos hc]
      · rw [if_neg hc]
        cases acc with
        | nil => exact absurd rfl hne
        | cons a as => simp
    have hstepne : (if acc.contains x then acc else acc ++ [x]) ≠ [] := by
      by_cases hc : acc.contains x
      · rw [if_pos hc]; exact hne
      · rw [if_neg hc]; simp
    calc ((x :: rest).foldl _ acc).head?
        = (rest.foldl _ (if acc.contains x then acc else acc ++ [x])).head? := rfl
      _ = (if acc.contains x then acc else acc ++ [x]).head? := ih _ hstepne
      _ = acc.head? := hstep

theorem dedupKeepFirst_head (x : String) (rest : List String) :
    (dedupKeepFirst (x :: rest)).head? = some x := by
  unfold dedupKeepFirst
  rw [List.foldl_cons]
  have : (([] : List String).contains x) = false := rfl
  rw [this]
  simp only [Bool.false_eq_true, if_false, List.nil_append]
  rw [dedup_foldl_head rest [x] (by simp)]
  rfl

/-! ## Replica-scan structure lemmas -/

theorem getReplicaNodes_eq_dedup (ring : Ring) (kh n : ℕ) (hne : ring ≠ []) :
    getReplicaNodes ring kh n = dedupKeepFirst (replicaWindow ring kh n) := by
  have hie : ring.isEmpty = false := by
    cases ring with
    | nil => exact absurd rfl hne
    | cons p rest => rfl
  unfold getReplicaNodes replicaWindow dedupKeepFirst
  rw [hie]
  simp only [Bool.false_eq_true, if_false]
  rw [List.foldl_map]

theorem replicaWindow_head (ring : Ring) (kh n : ℕ) (hne : ring ≠ [])
    (hn : 0 < n) :
    (replicaWindow ring kh n).head? = getNodeForKey ring kh := by
  have hie : ring.isEmpty = false := by
    cases ring with
    | nil => exact absurd rfl hne
    | cons p rest => rfl
  have hmapne : ring.map Prod.fst ≠ [] := by
    simpa using hne
  have hperm : (sortedHashes ring).Perm (ring.map Prod.fst) :=
    List.perm_insertionSort _ _
  have hsort : List.Sorted (· ≤ ·) (sortedHashes ring) :=
    List.sorted_insertionSort _ _
  have hlenpos : 0 < (sortedHashes ring).length := by
    rw [hperm.length_eq]
    exact List.length_pos.mpr hmapne
  obtain ⟨m, rfl⟩ : ∃ m, n = m + 1 := ⟨n - 1, by omega⟩
  unfold replicaWindow
  rw [List.range_succ_eq_map, List.map_cons, List.head?_cons]
  unfold getNodeForKey
  rw [hie]
  simp only [Bool.false_eq_true, if_false]
  cases haux : firstGEIdxAux kh (sortedHashes ring) with
  | some i =>
    have hspec := firstGEIdxAux_some haux
    have hstart : firstGEIdx kh (sortedHashes ring) = i := by
      unfold firstGEIdx
      rw [haux]
      rfl
    rw [hspec.2, hstart]
    have hmod : (i + 0) % (sortedHashes ring).length = i := by
      rw [Nat.add_zero]
      exact Nat.mod_eq_of_lt hspec.1
    rw [hmod]
  | none =>
    have hfind := firstGEIdxAux_none haux
    have hstart : firstGEIdx kh (sortedHashes ring) = 0 := by
      unfold firstGEIdx
      rw [haux]
      rfl
    rw [hfind, hstart]
    have hmod : (0 + 0) % (sortedHashes ring).length = 0 := by
      simp
    rw [hmod]
    rw [sorted_getD_zero_eq_min hperm hsort hmapne]

/-! ## Shapes of `get` used by the façade claims -/

theorem memGet_absent (ctx : Ctx) (now : ℤ) (key : Key) (st : MemState)
    (h : dictGet key st.cache = Option.none) :
    memGet ctx now key st = (PyVal.none, st) := by
  unfold memGet
  by_cases hinit : st.initialized
  · rw [if_pos hinit, h]
  · rw [if_neg hinit]

theorem memGet_live (ctx : Ctx) (now : ℤ) (key : Key) (st : MemState)
    (it : CacheItem) (hinit : st.initialized = true)
    (h : dictGet key st.cache = some it) (hexp : it.isExpiredAt now = false) :
    memGet ctx now key st =
      (it.value, { st with cache := dictSet key (bumpItem now it) st.cache }) := by
  unfold memGet
  rw [if_pos hinit, h]
  dsimp only
  rw [hexp]
  simp

theorem cmGet_mem_eq (ctx : Ctx) (now : ℤ) (key : Key) (st : CMState) :
    (cmGet ctx now key st).2.mem = (memGet ctx now key st.mem).2 := by
  unfold cmGet
  dsimp only
  cases (memGet ctx now key st.mem).1 <;> rfl

/-! ## The claims -/

/-- C1 (code evaluated at the failing input): `invalidate_by_tags(["lang"])`
on a memory backend holding a live item tagged `["lang", "python"]` removes
nothing and reports `0` invalidated; the tagged item is still returned by a
subsequent `get`.  The spec requires that after the call no readable item
carries an invalidated tag.  The slip: the scan calls `backend.get(key)`
(which yields the cached *payload*, not the `CacheItem` — the variable is
even named `item`) and probes `hasattr(item, "tags")`, which fails for every
decoded-JSON payload; the Redis branch of the method is an explicit `pass`. -/
theorem c1_invalidate_by_tags_noop :
    itemL.tags = ["lang", "python"] ∧
    (invalidateByTags ctxLru 10 ["lang"] c1St).1 = 0 ∧
    (memGet ctxLru 10 "k" (invalidateByTags ctxLru 10 ["lang"] c1St).2.mem).1 =
      PyVal.int 3 :=
  ⟨rfl, rfl, rfl⟩

/-- C2 (counterexample): with the over-budget LRU state `c2St` at `now = 50`,
item `"e"` is expired and `"a"` is not, yet `_evict_if_needed` evicts the
non-expired `"a"` (oldest `accessed_at`) and keeps the expired `"e"` —
expired items are *not* evicted first. -/
theorem c2_counterexample :
    itemE.isExpiredAt 50 = true ∧
    itemA.isExpiredAt 50 = false ∧
    dictGet "a" (evictIfNeeded ctxLru c2St).cache = Option.none ∧
    dictGet "e" (evictIfNeeded ctxLru c2St).cache = some itemE :=
  ⟨by decide, by decide, rfl, rfl⟩

/-- C2 (amended): when MemoryBackend eviction runs under LRU it orders the
candidates purely by ascending `accessed_at` over *all* items, expired and
live alike — every evicted item's `accessed_at` is at most every surviving
item's `accessed_at`, and expired items receive no eviction priority. -/
theorem c2_lru_eviction_order (ctx : Ctx) (st : MemState)
    (hstrat : ctx.strategy = Strategy.lru) (h : sizeConsistent ctx st)
    (p q : Key × CacheItem)
    (hp : p ∈ st.cache) (hnp : p ∉ (evictIfNeeded ctx st).cache)
    (hq : q ∈ (evictIfNeeded ctx st).cache) :
    p.2.accessedAt ≤ q.2.accessedAt := by
  unfold evictIfNeeded at hnp hq
  by_cases hb : st.currentSize ≤ st.maxSize
  · rw [if_pos hb] at hnp
    exact absurd hp hnp
  · rw [if_neg hb] at hnp hq
    have hpw : (sortByPolicy ctx.strategy st.cache).Pairwise byAccessed := by
      rw [hstrat]
      exact List.sorted_insertionSort byAccessed st.cache
    exact evictLoop_evicted_le ctx _ st (sortByPolicy_perm _ _).symm h.2 hpw
      p hp hnp q hq

theorem c2_lru_eviction_order_witness :
    (("a", itemA) : Key × CacheItem).2.accessedAt ≤
      (("e", itemE) : Key × CacheItem).2.accessedAt :=
  c2_lru_eviction_order ctxLru c2St rfl ⟨by decide, by decide⟩
    ("a", itemA) ("e", itemE)
    (List.Mem.head _)
    (fun hmem =>
      absurd (congrArg Prod.fst (List.mem_singleton.mp hmem)) (by decide))
    (List.Mem.head _)

/-- C4 (counterexample): `is_expired` uses a strict comparison
(`now - created_at > ttl`), so at the exact boundary `now = createdAt + t`
the item is still returned, where the claim requires it to be absent. -/
theorem c4_counterexample :
    (5 : ℤ) = itemT.createdAt + itemT.ttl ∧
    (memGet ctxLru 5 "k" c4St).1 = PyVal.int 7 ∧
    (memGet ctxLru 5 "k" c4St).1 ≠ PyVal.none :=
  ⟨by decide, rfl, by
    intro h
    rw [show (memGet ctxLru 5 "k" c4St).1 = PyVal.int 7 from rfl] at h
    exact PyVal.noConfusion h⟩

/-- C4 (amended): for an item stored with `ttl = t > 0`, `get` returns the
stored value while `now ≤ createdAt + t` — including the exact boundary —
and returns absent (and deletes the item) once `now > createdAt + t`. -/
theorem c4_ttl_semantics (ctx : Ctx) (now : ℤ) (key : Key) (st : MemState)
    (it : CacheItem) (t : ℤ)
    (hinit : st.initialized = true)
    (hit : dictGet key st.cache = some it)
    (httl : it.ttl = t) (ht : 0 < t) :
    (now ≤ it.createdAt + t → (memGet ctx now key st).1 = it.value) ∧
    (it.createdAt + t < now →
      (memGet ctx now key st).1 = PyVal.none ∧
      dictGet key (memGet ctx now key st).2.cache = Option.none) := by
  subst httl
  constructor
  · intro hle
    have hexp : it.isExpiredAt now = false := by
      unfold CacheItem.isExpiredAt
      simp only [decide_eq_false_iff_not]
      omega
    rw [memGet_live ctx now key st it hinit hit hexp]
  · intro hlt
    have hexp : it.isExpiredAt now = true := by
      unfold CacheItem.isExpiredAt
      simp only [decide_eq_true_eq]
      omega
    unfold memGet
    rw [if_pos hinit, hit]
    dsimp only
    rw [hexp]
    exact ⟨rfl, dictGet_removeKey_self key st.cache⟩

theorem c4_ttl_semantics_witness :
    ((3 : ℤ) ≤ itemT.createdAt + 5 → (memGet ctxLru 3 "k" c4St).1 = itemT.value) ∧
    (itemT.createdAt + 5 < 3 →
      (memGet ctxLru 3 "k" c4St).1 = PyVal.none ∧
      dictGet "k" (memGet ctxLru 3 "k" c4St).2.cache = Option.none) :=
  c4_ttl_semantics ctxLru 3 "k" c4St itemT 5 rfl rfl rfl (by decide)

/-- C5: (1) after any sequence of `set`s on a fresh MemoryBackend with byte
budget `m ≥ 0`, `current_size ≤ max_size`; (2) a `set` that acknowledges
success from any consistent state leaves `current_size ≤ max_size`; (3) when
a state is over budget, `_evict_if_needed` drives `current_size` down to at
most the 80%-of-`max_size` target (the comparison is `5·current ≤ 4·max`,
the exact form of `current ≤ 0.8·max`). -/
theorem c5_eviction_budget (ctx : Ctx) (m : ℤ) (ops : List SetOp)
    (st : MemState) (now : ℤ) (key : Key) (value : PyVal)
    (ttl : Option ℤ) (tags : Option (List String))
    (hm : 0 ≤ m) (hst : sizeConsistent ctx st) (hmax : st.maxSize = m) :
    (applySets ctx ops (memInit m)).currentSize ≤ m ∧
    ((memSet ctx now key value ttl tags st).1 = true →
      (memSet ctx now key value ttl tags st).2.currentSize ≤ m) ∧
    (m < st.currentSize → 5 * (evictIfNeeded ctx st).currentSize ≤ 4 * m) := by
  have hm' : 0 ≤ st.maxSize := by rw [hmax]; exact hm
  refine ⟨?_, ?_, ?_⟩
  · have hcons : sizeConsistent ctx (memInit m) :=
      ⟨by simp [memInit, sumSizes], by simp [memInit]⟩
    have := applySets_spec ctx ops (memInit m) hcons
      (by simpa [memInit] using hm) (by simpa [memInit] using hm)
    simpa [memInit] using this.2.2
  · intro hsucc
    have := memSet_spec ctx now key value ttl tags st hst hm'
    rw [← hmax]
    exact this.2.2.1 hsucc
  · intro hlt
    have := evictIfNeeded_spec ctx st hst hm'
    rw [← hmax]
    exact this.2.2.2 (by rw [hmax]; exact hlt)

theorem c5_eviction_budget_witness :
    (applySets ctxLru
      [⟨1, "x", PyVal.int 1, Option.none, Option.none⟩,
       ⟨2, "y", PyVal.int 2, Option.none, Option.none⟩,
       ⟨3, "z", PyVal.int 3, Option.none, Option.none⟩]
      (memInit 10)).currentSize ≤ 10 ∧
    ((memSet ctxLru 3 "z" (PyVal.int 9) Option.none Option.none c2St).1 = true →
      (memSet ctxLru 3 "z" (PyVal.int 9) Option.none Option.none c2St).2.currentSize ≤ 10) ∧
    ((10 : ℤ) < c2St.currentSize →
      5 * (evictIfNeeded ctxLru c2St).currentSize ≤ 4 * 10) :=
  c5_eviction_budget ctxLru 10
    [⟨1, "x", PyVal.int 1, Option.none, Option.none⟩,
     ⟨2, "y", PyVal.int 2, Option.none, Option.none⟩,
     ⟨3, "z", PyVal.int 3, Option.none, Option.none⟩]
    c2St 3 "z" (PyVal.int 9) Option.none Option.none
    (by decide) ⟨by decide, by decide⟩ rfl

/-- C9: `get_with_fallback` (a) returns the cached value and performs no
store when the façade `get` yields a non-`None` value; (b) on a miss with a
failing compute, the exception propagates and the state stays at the
post-`get` state — nothing is cached; (c) on a miss computing `None`, the
store is skipped; (d) on a miss computing a non-`None` value, the result is
returned and stored via `set`; and whatever entry a successful store leaves
under the key holds exactly the computed value. -/
theorem c9_get_with_fallback (ctx : Ctx) (now : ℤ) (key : Key) (st : CMState)
    (fb : Except FallbackErr PyVal) (ttl : Option ℤ)
    (tags : Option (List String)) (v : PyVal) (e : FallbackErr)
    (hnd : (st.mem.cache.map Prod.fst).Nodup) :
    ((cmGet ctx now key st).1 ≠ PyVal.none →
      getWithFallback ctx now key fb ttl tags st =
        (Except.ok (cmGet ctx now key st).1, (cmGet ctx now key st).2)) ∧
    ((cmGet ctx now key st).1 = PyVal.none →
      (fb = Except.error e →
        getWithFallback ctx now key fb ttl tags st =
          (Except.error e, (cmGet ctx now key st).2)) ∧
      (fb = Except.ok PyVal.none →
        getWithFallback ctx now key fb ttl tags st =
          (Except.ok PyVal.none, (cmGet ctx now key st).2)) ∧
      (fb = Except.ok v → v ≠ PyVal.none →
        getWithFallback ctx now key fb ttl tags st =
          (Except.ok v, (cmSet ctx now key v ttl tags (cmGet ctx now key st).2).2))) ∧
    ((cmSet ctx now key v ttl tags (cmGet ctx now key st).2).1 = true →
      ∀ it', dictGet key
          (cmSet ctx now key v ttl tags (cmGet ctx now key st).2).2.mem.cache =
          some it' →
        it'.value = v) := by
  refine ⟨?_, ?_, ?_⟩
  · intro hne
    unfold getWithFallback
    dsimp only
    cases hv : (cmGet ctx now key st).1
    case none => exact absurd hv hne
    all_goals rfl
  · intro hmiss
    unfold getWithFallback
    dsimp only
    rw [hmiss]
    refine ⟨?_, ?_, ?_⟩
    · intro hfb
      subst hfb
      rfl
    · intro hfb
      subst hfb
      rfl
    · intro hfb hvne
      subst hfb
      cases v
      case none => exact absurd rfl hvne
      all_goals rfl
  · intro hsucc it' hl
    have hnd2 : (((cmGet ctx now key st).2.mem).cache.map Prod.fst).Nodup := by
      rw [cmGet_mem_eq]
      exact memGet_nodup ctx now key st.mem hnd
    have hval := memSet_lookup_value ctx now key v ttl tags
      (cmGet ctx now key st).2.mem hnd2 hsucc hl
    rw [hval]
    rfl

theorem c9_get_with_fallback_witness :
    ((cmGet ctxLru 10 "k" c1St).1 ≠ PyVal.none →
      getWithFallback ctxLru 10 "k" (Except.ok (PyVal.int 9)) Option.none Option.none c1St =
        (Except.ok (cmGet ctxLru 10 "k" c1St).1, (cmGet ctxLru 10 "k" c1St).2)) ∧
    ((cmGet ctxLru 10 "k" c1St).1 = PyVal.none →
      (Except.ok (PyVal.int 9) = (Except.error (FallbackErr.exn "boom") :
          Except FallbackErr PyVal) →
        getWithFallback ctxLru 10 "k" (Except.ok (PyVal.int 9)) Option.none Option.none c1St =
          (Except.error (FallbackErr.exn "boom"), (cmGet ctxLru 10 "k" c1St).2)) ∧
      (Except.ok (PyVal.int 9) = (Except.ok PyVal.none : Except FallbackErr PyVal) →
        getWithFallback ctxLru 10 "k" (Except.ok (PyVal.int 9)) Option.none Option.none c1St =
          (Except.ok PyVal.none, (cmGet ctxLru 10 "k" c1St).2)) ∧
      (Except.ok (PyVal.int 9) = (Except.ok (PyVal.int 9) : Except FallbackErr PyVal) →
        PyVal.int 9 ≠ PyVal.none →
        getWithFallback ctxLru 10 "k" (Except.ok (PyVal.int 9)) Option.none Option.none c1St =
          (Except.ok (PyVal.int 9),
            (cmSet ctxLru 10 "k" (PyVal.int 9) Option.none Option.none
              (cmGet ctxLru 10 "k" c1St).2).2))) ∧
    ((cmSet ctxLru 10 "k" (PyVal.int 9) Option.none Option.none
        (cmGet ctxLru 10 "k" c1St).2).1 = true →
      ∀ it', dictGet "k"
          (cmSet ctxLru 10 "k" (PyVal.int 9) Option.none Option.none
            (cmGet ctxLru 10 "k" c1St).2).2.mem.cache = some it' →
        it'.value = PyVal.int 9) :=
  c9_get_with_fallback ctxLru 10 "k" c1St (Except.ok (PyVal.int 9))
    Option.none Option.none (PyVal.int 9) (FallbackErr.exn "boom") (by decide)

/-- C10: at the façade, a missing key and a stored `None` value are
indistinguishable: both return `None` and both are counted as a miss; and for
a key whose stored value is `None`, `get_with_fallback` consults the compute
function on every call (its outcome is the compute's outcome) and never
stores a computed `None`. -/
theorem c10_none_miss (ctx : Ctx) (now : ℤ) (key : Key) (st : CMState)
    (it : CacheItem) (fb : Except FallbackErr PyVal) (ttl : Option ℤ)
    (tags : Option (List String)) (e : FallbackErr)
    (hinit : st.mem.initialized = true) :
    (dictGet key st.mem.cache = Option.none →
      (cmGet ctx now key st).1 = PyVal.none ∧
      (cmGet ctx now key st).2.metrics.misses = st.metrics.misses + 1 ∧
      (cmGet ctx now key st).2.metrics.hits = st.metrics.hits) ∧
    (dictGet key st.mem.cache = some it → it.value = PyVal.none →
      it.isExpiredAt now = false →
      ((cmGet ctx now key st).1 = PyVal.none ∧
       (cmGet ctx now key st).2.metrics.misses = st.metrics.misses + 1 ∧
       (cmGet ctx now key st).2.metrics.hits = st.metrics.hits) ∧
      (fb = Except.error e →
        (getWithFallback ctx now key fb ttl tags st).1 = Except.error e) ∧
      (fb = Except.ok PyVal.none →
        getWithFallback ctx now key fb ttl tags st =
          (Except.ok PyVal.none, (cmGet ctx now key st).2))) := by
  constructor
  · intro habs
    have hmg := memGet_absent ctx now key st.mem habs
    unfold cmGet
    rw [hmg]
    exact ⟨rfl, rfl, rfl⟩
  · intro hsome hvn hexp
    have hmg := memGet_live ctx now key st.mem it hinit hsome hexp
    rw [hvn] at hmg
    have hc : (cmGet ctx now key st).1 = PyVal.none := by
      unfold cmGet
      rw [hmg]
    refine ⟨?_, ?_, ?_⟩
    · refine ⟨hc, ?_, ?_⟩
      · unfold cmGet
        rw [hmg]
      · unfold cmGet
        rw [hmg]
    · intro hfb
      subst hfb
      unfold getWithFallback
      dsimp only
      rw [hc]
    · intro hfb
      subst hfb
      unfold getWithFallback
      dsimp only
      rw [hc]

theorem c10_none_miss_witness :
    (dictGet "n" c10St.mem.cache = Option.none →
      (cmGet ctxLru 1 "n" c10St).1 = PyVal.none ∧
      (cmGet ctxLru 1 "n" c10St).2.metrics.misses = c10St.metrics.misses + 1 ∧
      (cmGet ctxLru 1 "n" c10St).2.metrics.hits = c10St.metrics.hits) ∧
    (dictGet "n" c10St.mem.cache = some itemN → itemN.value = PyVal.none →
      itemN.isExpiredAt 1 = false →
      ((cmGet ctxLru 1 "n" c10St).1 = PyVal.none ∧
       (cmGet ctxLru 1 "n" c10St).2.metrics.misses = c10St.metrics.misses + 1 ∧
       (cmGet ctxLru 1 "n" c10St).2.metrics.hits = c10St.metrics.hits) ∧
      ((Except.error (FallbackErr.exn "boom") : Except FallbackErr PyVal) =
          Except.error (FallbackErr.exn "boom") →
        (getWithFallback ctxLru 1 "n" (Except.error (FallbackErr.exn "boom"))
          Option.none Option.none c10St).1 = Except.error (FallbackErr.exn "boom")) ∧
      ((Except.error (FallbackErr.exn "boom") : Except FallbackErr PyVal) =
          Except.ok PyVal.none →
        getWithFallback ctxLru 1 "n" (Except.error (FallbackErr.exn "boom"))
          Option.none Option.none c10St =
          (Except.ok PyVal.none, (cmGet ctxLru 1 "n" c10St).2))) :=
  c10_none_miss ctxLru 1 "n" c10St itemN
    (Except.error (FallbackErr.exn "boom")) Option.none Option.none
    (FallbackErr.exn "boom") rfl

/-- C3 (counterexample): on the key-value (Redis) backend, a second
`set("k", tags=["b"])` after `set("k", tags=["a"])` leaves the stored tag set
`{"a", "b"}` — `SADD` merges into the old set and nothing clears it — where
the claim requires the tag set to be replaced entirely by `["b"]`. -/
theorem c3_counterexample :
    dictGet "k:tags" c3SecondSet.tagSets = some (["a", "b"], Option.none) ∧
    "a" ∈ (["a", "b"] : List String) ∧
    "a" ∉ (["b"] : List String) :=
  ⟨rfl, by decide, by decide⟩

/-- C3 (amended): `set(key, value, ttl, tags)` replaces the stored tag set
entirely on the memory backend (the fresh `CacheItem` carries exactly the
given tags) and on the document store (`replace_one` swaps the whole
document); on the key-value backend it instead `SADD`s the given tags into
the existing `"<key>:tags"` set, so old tags are preserved (merged), not
replaced. -/
theorem c3_set_tags_semantics (ctx : Ctx) (now : ℤ) (key : Key)
    (value : PyVal) (ttl : Option ℤ) (ts : List String)
    (mst : MemState) (gst : MongoState) (rst : RedisState) (it' : CacheItem)
    (hnd : (mst.cache.map Prod.fst).Nodup)
    (hsucc : (memSet ctx now key value ttl (some ts) mst).1 = true)
    (hl : dictGet key (memSet ctx now key value ttl (some ts) mst).2.cache =
      some it')
    (hginit : gst.initialized = true)
    (hrinit : rst.initialized = true)
    (hts : ts ≠ []) :
    it'.tags = ts ∧
    (∃ d, dictGet key (mongoSet now key value ttl (some ts) gst).2.docs =
        some d ∧ d.tags = ts) ∧
    (∃ en, dictGet (key ++ ":tags") (redisSet key value ttl (some ts) rst).2.tagSets =
        some en ∧
      en.1 = saddAll (((dictGet (key ++ ":tags") rst.tagSets).map Prod.fst).getD []) ts ∧
      (∀ t ∈ ((dictGet (key ++ ":tags") rst.tagSets).map Prod.fst).getD [], t ∈ en.1) ∧
      (∀ t ∈ ts, t ∈ en.1)) := by
  refine ⟨?_, ?_, ?_⟩
  · have := memSet_lookup_value ctx now key value ttl (some ts) mst hnd hsucc hl
    rw [this]
    rfl
  · unfold mongoSet
    rw [if_pos hginit]
    dsimp only
    exact ⟨_, dictGet_dictSet_self _ _ _, rfl⟩
  · unfold redisSet
    rw [if_pos hrinit]
    dsimp only
    have htsne : ts.isEmpty = false := by
      cases ts with
      | nil => exact absurd rfl hts
      | cons a as => rfl
    rw [htsne]
    refine ⟨_, dictGet_dictSet_self _ _ _, rfl, ?_, ?_⟩
    · intro t ht
      exact saddAll_subset_left ts _ ht
    · intro t ht
      exact saddAll_mem_right ts _ t ht

theorem c3_set_tags_semantics_witness :
    ∃ it', dictGet "k" (memSet ctxLru 1 "k" (PyVal.int 5) Option.none
        (some ["x", "y"]) (memInit 1000)).2.cache = some it' ∧
    (it'.tags = ["x", "y"] ∧
      (∃ d, dictGet "k" (mongoSet 1 "k" (PyVal.int 5) Option.none
          (some ["x", "y"]) mongoInit).2.docs = some d ∧ d.tags = ["x", "y"]) ∧
      (∃ en, dictGet "k:tags" (redisSet "k" (PyVal.int 5) Option.none
          (some ["x", "y"]) c3FirstSet).2.tagSets = some en ∧
        en.1 = saddAll (((dictGet "k:tags" c3FirstSet.tagSets).map Prod.fst).getD [])
          ["x", "y"] ∧
        (∀ t ∈ ((dictGet "k:tags" c3FirstSet.tagSets).map Prod.fst).getD [], t ∈ en.1) ∧
        (∀ t ∈ (["x", "y"] : List String), t ∈ en.1))) := by
  refine ⟨mkCacheItem ctxLru 1 "k" (PyVal.int 5) Option.none (some ["x", "y"]), rfl, ?_⟩
  exact c3_set_tags_semantics ctxLru 1 "k" (PyVal.int 5) Option.none
    ["x", "y"] (memInit 1000) mongoInit c3FirstSet
    (mkCacheItem ctxLru 1 "k" (PyVal.int 5) Option.none (some ["x", "y"]))
    (by decide) rfl rfl rfl rfl (by decide)

/-- C6 (counterexample): the endpoint computes the rotating
`expected_secret` but never compares it; a request whose header is the bogus
`"replicate-x"` — not the valid credential — is accepted, the pushed write is
applied, and the value is readable afterwards, where the claim requires
rejection without applying the write. -/
theorem c6_counterexample :
    "replicate-x" ≠ expectedSecret "cache-node-1" 0 ∧
    (replicateCache ctxLru 0 (some "replicate-x") (some "k")
      (some (PyVal.int 42)) Option.none (cmInit 1000000)).1 =
      ReplicateResult.ok true ∧
    (memGet ctxLru 0 "k"
      (replicateCache ctxLru 0 (some "replicate-x") (some "k")
        (some (PyVal.int 42)) Option.none (cmInit 1000000)).2.mem).1 =
      PyVal.int 42 :=
  ⟨by decide, rfl, rfl⟩

/-- C6 (amended): the replicate endpoint rejects (403, state unchanged) a
request whose `X-Replication-Secret` header is missing, empty, or lacks the
`"replicate-"` prefix; any request whose header has that prefix — whether or
not it equals the endpoint's `expected_secret` — is treated as credentialed:
with a truthy key and non-`None` value the pushed write is applied through
`cache_manager.set` and its success flag is returned. -/
theorem c6_replicate_auth (ctx : Ctx) (now : ℤ) (st : CMState)
    (s s' : String) (key : Option Key) (value : Option PyVal) (ttl : Option ℤ)
    (k : Key) (v : PyVal)
    (hbad : s = "" ∨ "replicate-".toList.isPrefixOf s.toList = false)
    (hgood : "replicate-".toList.isPrefixOf s'.toList = true)
    (hk : k ≠ "") :
    replicateCache ctx now Option.none key value ttl st =
      (ReplicateResult.forbidden, st) ∧
    replicateCache ctx now (some s) key value ttl st =
      (ReplicateResult.forbidden, st) ∧
    replicateCache ctx now (some s') (some k) (some v) ttl st =
      (ReplicateResult.ok (cmSet ctx now k v ttl Option.none st).1,
        (cmSet ctx now k v ttl Option.none st).2) := by
  refine ⟨rfl, ?_, ?_⟩
  · rcases hbad with hb | hb
    · subst hb
      rfl
    · unfold replicateCache
      dsimp only
      rw [hb, Bool.and_false]
      rfl
  · have hne : s' ≠ "" := by
      intro h
      subst h
      exact absurd hgood (by decide)
    have hie : s'.isEmpty = false := by
      cases hb : s'.isEmpty with
      | false => rfl
      | true => exact absurd ((String.isEmpty_iff s').mp hb) hne
    have hkie : k.isEmpty = false := by
      cases hb : k.isEmpty with
      | false => rfl
      | true => exact absurd ((String.isEmpty_iff k).mp hb) hk
    unfold replicateCache
    dsimp only
    rw [hie, hgood, hkie]
    rfl

theorem c6_replicate_auth_witness :
    replicateCache ctxLru 0 Option.none (some "q") (some (PyVal.int 1))
      Option.none (cmInit 5) = (ReplicateResult.forbidden, cmInit 5) ∧
    replicateCache ctxLru 0 (some "x") (some "q") (some (PyVal.int 1))
      Option.none (cmInit 5) = (ReplicateResult.forbidden, cmInit 5) ∧
    replicateCache ctxLru 0 (some "replicate-x") (some "k")
      (some (PyVal.int 42)) Option.none (cmInit 5) =
      (ReplicateResult.ok
        (cmSet ctxLru 0 "k" (PyVal.int 42) Option.none Option.none (cmInit 5)).1,
       (cmSet ctxLru 0 "k" (PyVal.int 42) Option.none Option.none (cmInit 5)).2) :=
  c6_replicate_auth ctxLru 0 (cmInit 5) "x" "replicate-x" (some "q")
    (some (PyVal.int 1)) Option.none "k" (PyVal.int 42)
    (Or.inr (by decide)) (by decide) (by decide)

/-- C7 (counterexample): on the ring `ring0` — three distinct online nodes —
the replica scan for a key at position 5 with `n = 2` returns only `["A"]`:
it examines the 2 consecutive ring points (both virtual points of node `A`)
and deduplicates, instead of walking on to the next distinct node; the
spec-walk (`specReplicaSetFor`) yields `["A", "B"]`. -/
theorem c7_counterexample :
    getReplicaNodes ring0 5 2 = ["A"] ∧
    specReplicaSetFor ring0 5 2 = ["A", "B"] ∧
    dedupKeepFirst (ring0.map Prod.snd) = ["A", "B", "C"] ∧
    (getReplicaNodes ring0 5 2).length < 2 :=
  ⟨rfl, rfl, rfl, by decide⟩

/-- C7 (amended): `_get_replica_nodes(key, n)` returns the distinct node ids
among the `n` *consecutive ring points* clockwise from the key's position —
owner first, never a duplicate, at most `n` ids, but possibly fewer than `n`
distinct nodes even when the ring holds `n` distinct online nodes, because
consecutive virtual points of one physical node are not skipped past. -/
theorem c7_replica_window (ring : Ring) (kh n : ℕ) (hne : ring ≠ [])
    (hn : 0 < n) :
    getReplicaNodes ring kh n = dedupKeepFirst (replicaWindow ring kh n) ∧
    (getReplicaNodes ring kh n).Nodup ∧
    (getReplicaNodes ring kh n).length ≤ n ∧
    (getReplicaNodes ring kh n).head? = getNodeForKey ring kh := by
  have heq := getReplicaNodes_eq_dedup ring kh n hne
  refine ⟨heq, ?_, ?_, ?_⟩
  · rw [heq]
    exact dedupKeepFirst_nodup _
  · rw [heq]
    calc (dedupKeepFirst (replicaWindow ring kh n)).length
        ≤ (replicaWindow ring kh n).length := dedupKeepFirst_length _
      _ = n := by simp [replicaWindow]
  · rw [heq, ← replicaWindow_head ring kh n hne hn]
    cases hw : replicaWindow ring kh n with
    | nil => rfl
    | cons x rest =>
      rw [dedupKeepFirst_head]
      rfl

theorem c7_replica_window_witness :
    getReplicaNodes ring0 5 2 = dedupKeepFirst (replicaWindow ring0 5 2) ∧
    (getReplicaNodes ring0 5 2).Nodup ∧
    (getReplicaNodes ring0 5 2).length ≤ 2 ∧
    (getReplicaNodes ring0 5 2).head? = getNodeForKey ring0 5 :=
  c7_replica_window ring0 5 2 (by decide) (by decide)

/-- C8: `_hash_key` lands in the 32-bit ring space; on an empty ring every
lookup returns `None` (no owner, no exception); on a non-empty ring the
owner is the node recorded at the *least* ring point `≥` the key's hash, or
— when every point is below the key's hash — at the minimum ring point
(classic wraparound).  Determinism/stability is inherent: the routing is a
pure function of the ring and the key hash. -/
theorem c8_owner_of (ring : Ring) (kh m : ℕ) (hne : ring ≠ []) :
    hashKey m < 2 ^ 32 ∧
    getNodeForKey ([] : Ring) kh = Option.none ∧
    ∃ h, h ∈ ring.map Prod.fst ∧
      getNodeForKey ring kh = some (ringLookup ring h) ∧
      ((kh ≤ h ∧ ∀ h' ∈ ring.map Prod.fst, kh ≤ h' → h ≤ h') ∨
       ((∀ h' ∈ ring.map Prod.fst, h' < kh) ∧
        ∀ h' ∈ ring.map Prod.fst, h ≤ h')) := by
  refine ⟨Nat.mod_lt m (by norm_num), rfl, ?_⟩
  have hie : ring.isEmpty = false := by
    cases ring with
    | nil => exact absurd rfl hne
    | cons p rest => rfl
  have hperm : (sortedHashes ring).Perm (ring.map Prod.fst) :=
    List.perm_insertionSort _ _
  have hsort : List.Sorted (· ≤ ·) (sortedHashes ring) :=
    List.sorted_insertionSort _ _
  unfold getNodeForKey
  rw [hie]
  simp only [Bool.false_eq_true, if_false]
  cases hf : (sortedHashes ring).find? (fun x => decide (kh ≤ x)) with
  | some h =>
    refine ⟨h, ?_, rfl, Or.inl ⟨?_, ?_⟩⟩
    · exact hperm.subset (List.mem_of_find?_eq_some hf)
    · simpa using List.find?_some hf
    · intro h' hh' hge
      exact find_ge_min kh hsort hf h' (hperm.mem_iff.mpr hh') hge
  | none =>
    refine ⟨listMin (ring.map Prod.fst),
      listMin_mem (by simpa using hne), rfl, Or.inr ⟨?_, ?_⟩⟩
    · intro h' hh'
      have h2 : ¬ kh ≤ h' := by
        simpa using (List.find?_eq_none.mp hf) h' (hperm.mem_iff.mpr hh')
      omega
    · intro h' hh'
      exact listMin_le h' hh'

theorem c8_owner_of_witness :
    hashKey 7 < 2 ^ 32 ∧
    getNodeForKey ([] : Ring) 35 = Option.none ∧
    ∃ h, h ∈ ring0.map Prod.fst ∧
      getNodeForKey ring0 35 = some (ringLookup ring0 h) ∧
      ((35 ≤ h ∧ ∀ h' ∈ ring0.map Prod.fst, 35 ≤ h' → h ≤ h') ∨
       ((∀ h' ∈ ring0.map Prod.fst, h' < 35) ∧
        ∀ h' ∈ ring0.map Prod.fst, h ≤ h')) :=
  c8_owner_of ring0 35 7 (by decide)

end TechStats
